import Mathlib

/-!
Verification of the core of the Yu-Gi-Oh hand simulator: the deck model,
the greedy category-partition algorithm, and the hypergeometric probability
engine.  Python dictionaries (insertion-ordered) are modelled as association
lists, Python sets of card names as lists of names, Python exceptions as
`Option`/`none`, and float results as exact rationals `ℚ`.
-/

namespace YGO

/-- `YuGiOhDeck.MAX_COPIES` (src/src/main.py line 17). -/
def MAX_COPIES : Int := 3

/-- Insertion-ordered dictionary update, mirroring Python's
`self.cards[card_name] = copies`: overwrite in place when the key is
present, append at the end otherwise. -/
def dictSet : List (String × Nat) → String → Nat → List (String × Nat)
  | [], n, v => [(n, v)]
  | (k, w) :: rest, n, v =>
      if k = n then (n, v) :: rest else (k, w) :: dictSet rest n v

/-- `YuGiOhDeck.add_card` (src/src/main.py lines 26-29): raises `ValueError`
(modelled as `none`) when `copies < 1` or `copies > MAX_COPIES`; otherwise
stores `copies` for `card_name` in the card mapping and returns the updated
mapping.  On `none` the caller's mapping is untouched. -/
def add_card (cards : List (String × Nat)) (card_name : String)
    (copies : Int) : Option (List (String × Nat)) :=
  if copies < 1 ∨ copies > MAX_COPIES then none
  else some (dictSet cards card_name copies.toNat)

/-- One category-assignment pass, the loop shared verbatim by
`run_simulator` (src/src/main.py lines 600-629, three copies),
`gui.apply_and_draw` (src/src/gui.py lines 543-572) and
`draw_manager.apply_and_draw` (src/src/gui_components/draw_manager.py lines
56-85): walk `card_list`; break as soon as `remaining <= 0`; `continue`
(without decrementing) on cards already in `assigned`; otherwise add the
card when `copies <= remaining` and decrement `remaining` by `copies`
whether or not the card was added. -/
def categoryPass (copiesOf : String → Nat) :
    List String → List String → Int → List String
  | [], _, _ => []
  | card_name :: rest, assigned, remaining =>
      if remaining ≤ 0 then []
      else if card_name ∈ assigned then
        categoryPass copiesOf rest assigned remaining
      else if (copiesOf card_name : Int) ≤ remaining then
        card_name :: categoryPass copiesOf rest assigned
          (remaining - copiesOf card_name)
      else
        categoryPass copiesOf rest assigned (remaining - copiesOf card_name)

/-- The three category sets held by `YuGiOhDeck`
(src/src/main.py lines 22-24). -/
structure Partition where
  engine_cards : List String
  non_engine_cards : List String
  brick_cards : List String
deriving Repr, DecidableEq

/-- Copy count of a name in the deck mapping, `deck.cards[card_name]`. -/
def copiesOfDeck (cards : List (String × Nat)) : String → Nat :=
  fun n => (List.lookup n cards).getD 0

/-- Category assignment as performed by the GUI, both in
`gui.apply_and_draw` (src/src/gui.py lines 537-572) and in
`draw_manager.apply_and_draw` (src/src/gui_components/draw_manager.py lines
50-85), whose three loops are identical: clear the three sets, then run the
pass for bricks (empty skip set), then non-engine (skipping bricks), then
engine (skipping bricks and non-engine). -/
def partitionGUI (cards : List (String × Nat))
    (brick_count non_engine_count engine_count : Int) : Partition :=
  let card_list := cards.map Prod.fst
  let copies := copiesOfDeck cards
  let bricks := categoryPass copies card_list [] brick_count
  let non_engines := categoryPass copies card_list bricks non_engine_count
  let engines :=
    categoryPass copies card_list (bricks ++ non_engines) engine_count
  ⟨engines, non_engines, bricks⟩

/-- Category assignment as performed by the CLI `run_simulator`
(src/src/main.py lines 595-629): clear the three sets, then run the pass
for engine (empty skip set), then non-engine (skipping engine), then brick
(skipping engine and non-engine). -/
def partitionCLI (cards : List (String × Nat))
    (brick_count non_engine_count engine_count : Int) : Partition :=
  let card_list := cards.map Prod.fst
  let copies := copiesOfDeck cards
  let engines := categoryPass copies card_list [] engine_count
  let non_engines := categoryPass copies card_list engines non_engine_count
  let bricks :=
    categoryPass copies card_list (engines ++ non_engines) brick_count
  ⟨engines, non_engines, bricks⟩

/-- One pass of the partition algorithm as worded by the specification
(section 4.2, steps 2-4), with a natural-number remaining target: walk card
names in iteration order, stop once the remaining target reaches 0, skip
cards already categorized (without decrementing), add a card exactly when
its whole copy count fits in the remaining target, and decrement the
remaining target by the copy count whether or not the card was added. -/
def specPass (copiesOf : String → Nat) :
    List String → List String → Nat → List String
  | [], _, _ => []
  | card_name :: rest, assigned, t =>
      if t = 0 then []
      else if card_name ∈ assigned then specPass copiesOf rest assigned t
      else if copiesOf card_name ≤ t then
        card_name :: specPass copiesOf rest assigned (t - copiesOf card_name)
      else specPass copiesOf rest assigned (t - copiesOf card_name)

/-- The partition algorithm as worded by the specification (section 4.2):
passes in the fixed order brick, then non-engine, then engine, each later
pass skipping the cards assigned by the earlier passes. -/
def specPartition (cards : List (String × Nat))
    (brick_target non_engine_target engine_target : Nat) : Partition :=
  let card_list := cards.map Prod.fst
  let copies := copiesOfDeck cards
  let bricks := specPass copies card_list [] brick_target
  let non_engines := specPass copies card_list bricks non_engine_target
  let engines :=
    specPass copies card_list (bricks ++ non_engines) engine_target
  ⟨engines, non_engines, bricks⟩

/-- Remaining target on arrival at position `i` of a pass: the initial
target minus the copy counts of every earlier card that was not skipped as
already assigned. -/
def remainingAt (copiesOf : String → Nat) (card_list assigned : List String)
    (t : Int) (i : Nat) : Int :=
  t - (((card_list.take i).filter (fun n => n ∉ assigned)).map copiesOf).sum

/-- Python's `math.comb(n, k)`: raises (modelled as `none`) on a negative
argument, and otherwise is the binomial coefficient, which is `0` when
`k > n`. -/
def pyComb (n k : Int) : Option Nat :=
  if n < 0 ∨ k < 0 then none else some (Nat.choose n.toNat k.toNat)

/-- `hypergeometric_probability` (src/src/main.py lines 225-235), with the
float result modelled as an exact rational.  `none` would mean an
uncaught exception from `math.comb`. -/
def hypergeometric_probability (population successes_in_pop : Int)
    (draws target_successes : Int) : Option ℚ :=
  if target_successes > successes_in_pop ∨ target_successes > draws then
    some 0
  else if target_successes < 0 ∨
      (draws - target_successes) > (population - successes_in_pop) then
    some 0
  else do
    let a ← pyComb successes_in_pop target_successes
    let b ← pyComb (population - successes_in_pop)
      (draws - target_successes)
    let denominator ← pyComb population draws
    some (if 0 < denominator then ((a * b : ℚ)) / (denominator : ℚ) else 0)

/-- Python's `range(a, b)` as a list of integers. -/
def intRange (a b : Int) : List Int :=
  (List.range (b - a).toNat).map (fun i : Nat => a + (i : Int))

/-- The accumulation loop of `probability_at_least`: `prob += ...` over the
given list of `k` values, propagating an exception as `none`. -/
def sumHyper (population successes_in_pop draws : Int) :
    List Int → ℚ → Option ℚ
  | [], prob => some prob
  | k :: rest, prob =>
      match hypergeometric_probability population successes_in_pop draws k
      with
      | none => none
      | some p => sumHyper population successes_in_pop draws rest (prob + p)

/-- `probability_at_least` (src/src/main.py lines 238-244): sums the exact
hypergeometric probabilities for `k` from `min_successes` to
`min(successes_in_pop, draws)` inclusive. -/
def probability_at_least (population successes_in_pop : Int)
    (draws min_successes : Int) : Option ℚ :=
  sumHyper population successes_in_pop draws
    (intRange min_successes (min successes_in_pop draws + 1)) 0

/-- The joint engine/non-engine probability table `probs['combinations']`
built by `calculate_probabilities` (src/src/main.py lines 294-304): for
`eng` in `range(hand_size+1)` and `non_eng` in `range(hand_size+1-eng)`,
an entry is stored only when `eng ≤ engine_count`,
`non_eng ≤ non_engine_count` and the remainder drawn from the other pool
is between `0` and `other_count`; absent cells are never zero-filled.
The same guarded formula is rendered by
`stats_manager.display_statistics` (src/src/gui_components/stats_manager.py
lines 37-58). -/
def combinations_table (deck_size engine_count : Nat)
    (non_engine_count hand_size : Nat) : List ((Nat × Nat) × ℚ) :=
  (List.range (hand_size + 1)).flatMap (fun eng =>
    (List.range (hand_size + 1 - eng)).filterMap (fun non_eng =>
      if eng ≤ engine_count ∧ non_eng ≤ non_engine_count then
        let other_count : Int :=
          (deck_size : Int) - engine_count - non_engine_count
        let other_in_hand : Int := (hand_size : Int) - eng - non_eng
        if 0 ≤ other_in_hand ∧ other_in_hand ≤ other_count then
          some ((eng, non_eng),
            ((Nat.choose engine_count eng * Nat.choose non_engine_count
                non_eng * Nat.choose other_count.toNat other_in_hand.toNat
              : ℚ) / (Nat.choose deck_size hand_size : ℚ)))
        else none
      else none))

/-- The value of `hypergeometric_probability` when it does not raise. -/
def hVal (population successes_in_pop draws target_successes : Int) : ℚ :=
  (hypergeometric_probability population successes_in_pop draws
    target_successes).getD 0

/-- The value of `probability_at_least` when it does not raise. -/
def atLeastVal (population successes_in_pop draws min_successes : Int) :
    ℚ :=
  (probability_at_least population successes_in_pop draws
    min_successes).getD 0

/-- The `BRICK ANALYSIS` composite of `display_results`
(src/src/main.py lines 434-443), in percent as printed:
`open_brick + no_brick_open * (brick_total / (deck_size - 5)) * 100`
with the second term replaced by `0` when `deck_size <= 5`. -/
def brick_by_turn1_cli (deck_size brick_total : Nat) : ℚ :=
  let open_brick :=
    atLeastVal (deck_size : Int) (brick_total : Int) 5 1 * 100
  let no_brick_open := hVal (deck_size : Int) (brick_total : Int) 5 0
  let no_brick_then_draw :=
    if 5 < deck_size then
      no_brick_open * ((brick_total : ℚ) / ((deck_size : ℚ) - 5)) * 100
    else 0
  open_brick + no_brick_then_draw

/-- The same composite as computed by `stats_manager.display_statistics`
(src/src/gui_components/stats_manager.py lines 80-87), whose degenerate
branch returns `open_brick` alone. -/
def brick_by_turn1_gui (deck_size brick_count : Nat) : ℚ :=
  let open_brick :=
    atLeastVal (deck_size : Int) (brick_count : Int) 5 1 * 100
  let no_brick_open := hVal (deck_size : Int) (brick_count : Int) 5 0
  if 5 < deck_size then
    open_brick +
      no_brick_open * (brick_count : ℚ) / ((deck_size : ℚ) - 5) * 100
  else open_brick

/-! ## Helper lemmas -/

theorem lookup_dictSet_self (cards : List (String × Nat)) (n : String)
    (v : Nat) : List.lookup n (dictSet cards n v) = some v := by
  induction cards with
  | nil => simp [dictSet, List.lookup]
  | cons p rest ih =>
      obtain ⟨k, w⟩ := p
      by_cases h : k = n
      · simp [dictSet, h, List.lookup]
      · have hne : (n == k) = false := beq_eq_false_iff_ne.mpr (Ne.symm h)
        simp [dictSet, h, List.lookup, hne, ih]

theorem lookup_dictSet_ne (cards : List (String × Nat)) (n : String)
    (v : Nat) (m : String) (h : m ≠ n) :
    List.lookup m (dictSet cards n v) = List.lookup m cards := by
  induction cards with
  | nil =>
      have hne : (m == n) = false := beq_eq_false_iff_ne.mpr h
      simp [dictSet, List.lookup, hne]
  | cons p rest ih =>
      obtain ⟨k, w⟩ := p
      by_cases hk : k = n
      · subst hk
        have hne : (m == k) = false := beq_eq_false_iff_ne.mpr h
        simp [dictSet, List.lookup, hne]
      · by_cases hm : m = k
        · have hbeq : (m == k) = true := beq_iff_eq.mpr hm
          simp [dictSet, hk, List.lookup, hbeq]
        · have hne : (m == k) = false := beq_eq_false_iff_ne.mpr hm
          simp [dictSet, hk, List.lookup, hne, ih]

theorem keys_dictSet (cards : List (String × Nat)) (n : String) (v : Nat) :
    (dictSet cards n v).map Prod.fst =
      (if n ∈ cards.map Prod.fst then cards.map Prod.fst
       else cards.map Prod.fst ++ [n]) := by
  induction cards with
  | nil => simp [dictSet]
  | cons p rest ih =>
      obtain ⟨k, w⟩ := p
      by_cases h : k = n
      · simp [dictSet, h]
      · by_cases hmem : n ∈ rest.map Prod.fst
        · simp [dictSet, h, ih, hmem, Ne.symm h]
        · simp [dictSet, h, ih, hmem, Ne.symm h]

theorem categoryPass_subset (copiesOf : String → Nat) :
    ∀ (card_list assigned : List String) (t : Int) (x : String),
      x ∈ categoryPass copiesOf card_list assigned t → x ∈ card_list := by
  intro card_list
  induction card_list with
  | nil => intro assigned t x hx; simp [categoryPass] at hx
  | cons n rest ih =>
      intro assigned t x hx
      rw [categoryPass] at hx
      by_cases ht : t ≤ 0
      · rw [if_pos ht] at hx; simp at hx
      · rw [if_neg ht] at hx
        by_cases hmem : n ∈ assigned
        · rw [if_pos hmem] at hx
          exact List.mem_cons_of_mem n (ih assigned t x hx)
        · rw [if_neg hmem] at hx
          by_cases hc : (copiesOf n : Int) ≤ t
          · rw [if_pos hc] at hx
            rcases List.mem_cons.1 hx with h | h
            · exact List.mem_cons.2 (Or.inl h)
            · exact List.mem_cons_of_mem n (ih assigned _ x h)
          · rw [if_neg hc] at hx
            exact List.mem_cons_of_mem n (ih assigned _ x hx)

theorem categoryPass_not_assigned (copiesOf : String → Nat) :
    ∀ (card_list assigned : List String) (t : Int) (x : String),
      x ∈ categoryPass copiesOf card_list assigned t → x ∉ assigned := by
  intro card_list
  induction card_list with
  | nil => intro assigned t x hx; simp [categoryPass] at hx
  | cons n rest ih =>
      intro assigned t x hx
      rw [categoryPass] at hx
      by_cases ht : t ≤ 0
      · rw [if_pos ht] at hx; simp at hx
      · rw [if_neg ht] at hx
        by_cases hmem : n ∈ assigned
        · rw [if_pos hmem] at hx
          exact ih assigned t x hx
        · rw [if_neg hmem] at hx
          by_cases hc : (copiesOf n : Int) ≤ t
          · rw [if_pos hc] at hx
            rcases List.mem_cons.1 hx with h | h
            · subst h; exact hmem
            · exact ih assigned _ x h
          · rw [if_neg hc] at hx
            exact ih assigned _ x hx

theorem categoryPass_sum_le (copiesOf : String → Nat) :
    ∀ (card_list assigned : List String) (t : Int),
      (((categoryPass copiesOf card_list assigned t).map copiesOf).sum
        : Int) ≤ max t 0 := by
  intro card_list
  induction card_list with
  | nil => intro assigned t; simp [categoryPass]
  | cons n rest ih =>
      intro assigned t
      rw [categoryPass]
      by_cases ht : t ≤ 0
      · rw [if_pos ht]; simp
      · rw [if_neg ht]
        by_cases hmem : n ∈ assigned
        · rw [if_pos hmem]; exact ih assigned t
        · rw [if_neg hmem]
          by_cases hc : (copiesOf n : Int) ≤ t
          · rw [if_pos hc]
            have h1 := ih assigned (t - copiesOf n)
            simp only [List.map_cons, List.sum_cons]
            push_cast at h1 ⊢
            omega
          · rw [if_neg hc]
            have h1 := ih assigned (t - copiesOf n)
            push_cast at h1 ⊢
            omega

theorem categoryPass_eq_specPass (copiesOf : String → Nat) :
    ∀ (card_list assigned : List String) (t : Int),
      categoryPass copiesOf card_list assigned t =
        specPass copiesOf card_list assigned t.toNat := by
  intro card_list
  induction card_list with
  | nil => intro assigned t; rfl
  | cons n rest ih =>
      intro assigned t
      rw [categoryPass, specPass]
      by_cases ht : t ≤ 0
      · rw [if_pos ht, if_pos (by omega : t.toNat = 0)]
      · rw [if_neg ht, if_neg (by omega : ¬t.toNat = 0)]
        by_cases hmem : n ∈ assigned
        · rw [if_pos hmem, if_pos hmem]
          exact ih assigned t
        · rw [if_neg hmem, if_neg hmem]
          by_cases hc : (copiesOf n : Int) ≤ t
          · rw [if_pos hc, if_pos (by omega : copiesOf n ≤ t.toNat)]
            have harg : (t - (copiesOf n : Int)).toNat =
                t.toNat - copiesOf n := by omega
            rw [ih assigned (t - copiesOf n), harg]
          · rw [if_neg hc, if_neg (by omega : ¬copiesOf n ≤ t.toNat)]
            have harg : (t - (copiesOf n : Int)).toNat =
                t.toNat - copiesOf n := by omega
            rw [ih assigned (t - copiesOf n), harg]

theorem hypergeometric_eq_some (population successes_in_pop : Int)
    (draws target_successes : Int) :
    hypergeometric_probability population successes_in_pop draws
        target_successes =
      some (if target_successes > successes_in_pop ∨
          target_successes > draws ∨ target_successes < 0 ∨
          draws - target_successes > population - successes_in_pop then 0
        else
          (Nat.choose successes_in_pop.toNat target_successes.toNat *
            Nat.choose (population - successes_in_pop).toNat
              (draws - target_successes).toNat : ℚ) /
          (Nat.choose population.toNat draws.toNat : ℚ)) := by
  unfold hypergeometric_probability
  by_cases h1 : target_successes > successes_in_pop ∨
      target_successes > draws
  · rw [if_pos h1, if_pos (by tauto)]
  · rw [if_neg h1]
    by_cases h2 : target_successes < 0 ∨
        draws - target_successes > population - successes_in_pop
    · rw [if_pos h2, if_pos (by tauto)]
    · rw [if_neg h2, if_neg (by tauto)]
      push_neg at h1 h2
      obtain ⟨hk1, hk2⟩ := h1
      obtain ⟨hk3, hk4⟩ := h2
      have g1 : ¬(successes_in_pop < 0 ∨ target_successes < 0) := by omega
      have g2 : ¬(population - successes_in_pop < 0 ∨
          draws - target_successes < 0) := by omega
      have g3 : ¬(population < 0 ∨ draws < 0) := by omega
      simp only [pyComb, if_neg g1, if_neg g2, if_neg g3,
        Option.bind_eq_bind, Option.some_bind]
      have hpos : 0 < Nat.choose population.toNat draws.toNat :=
        Nat.choose_pos (by omega)
      rw [if_pos hpos]

theorem hypergeometric_isSome (population successes_in_pop : Int)
    (draws target_successes : Int) :
    (hypergeometric_probability population successes_in_pop draws
      target_successes).isSome = true := by
  rw [hypergeometric_eq_some]; rfl

theorem hypergeometric_eq_some_hVal (population successes_in_pop : Int)
    (draws target_successes : Int) :
    hypergeometric_probability population successes_in_pop draws
        target_successes =
      some (hVal population successes_in_pop draws target_successes) := by
  rw [hVal, hypergeometric_eq_some]
  rfl

theorem list_range_map_sum (f : Nat → ℚ) (n : Nat) :
    ((List.range n).map f).sum = ∑ k ∈ Finset.range n, f k := by
  induction n with
  | zero => simp
  | succ m ih =>
      rw [List.range_succ, Finset.sum_range_succ, List.map_append,
        List.sum_append, ih]
      simp

theorem sumHyper_eq (population successes_in_pop draws : Int) :
    ∀ (l : List Int) (init : ℚ),
      sumHyper population successes_in_pop draws l init =
        some (init + (l.map (fun k =>
          hVal population successes_in_pop draws k)).sum) := by
  intro l
  induction l with
  | nil => intro init; simp [sumHyper]
  | cons k rest ih =>
      intro init
      rw [sumHyper, hypergeometric_eq_some_hVal]
      show sumHyper population successes_in_pop draws rest
          (init + hVal population successes_in_pop draws k) =
        some (init + ((k :: rest).map (fun j =>
          hVal population successes_in_pop draws j)).sum)
      rw [ih]
      simp [add_assoc]

theorem sum_hVal_eq_one (population successes_in_pop draws : Int)
    (h1 : 0 ≤ successes_in_pop) (h2 : successes_in_pop ≤ population)
    (h3 : 0 ≤ draws) (h4 : draws ≤ population) :
    ∑ k ∈ Finset.range (draws.toNat + 1),
      hVal population successes_in_pop draws (k : Int) = 1 := by
  have hKN : successes_in_pop.toNat ≤ population.toNat := by omega
  have hnN : draws.toNat ≤ population.toNat := by omega
  have hstep : ∀ k ∈ Finset.range (draws.toNat + 1),
      hVal population successes_in_pop draws (k : Int) =
        (Nat.choose successes_in_pop.toNat k *
          Nat.choose (population.toNat - successes_in_pop.toNat)
            (draws.toNat - k) : ℚ) /
        (Nat.choose population.toNat draws.toNat : ℚ) := by
    intro k hk
    rw [Finset.mem_range] at hk
    rw [hVal, hypergeometric_eq_some, Option.getD_some]
    by_cases hkK : (k : Int) > successes_in_pop
    · rw [if_pos (Or.inl hkK)]
      rw [Nat.choose_eq_zero_of_lt (by omega)]
      simp
    · by_cases hnk : draws - (k : Int) >
          population - successes_in_pop
      · rw [if_pos (Or.inr (Or.inr (Or.inr hnk)))]
        rw [Nat.choose_eq_zero_of_lt
          (show population.toNat - successes_in_pop.toNat <
            draws.toNat - k by omega)]
        simp
      · rw [if_neg (by omega)]
        have e1 : ((k : Int)).toNat = k := by omega
        have e2 : (population - successes_in_pop).toNat =
            population.toNat - successes_in_pop.toNat := by omega
        have e3 : (draws - (k : Int)).toNat = draws.toNat - k := by
          omega
        rw [e1, e2, e3]
  rw [Finset.sum_congr rfl hstep, ← Finset.sum_div]
  have hV : ∑ k ∈ Finset.range (draws.toNat + 1),
      (Nat.choose successes_in_pop.toNat k *
        Nat.choose (population.toNat - successes_in_pop.toNat)
          (draws.toNat - k) : ℚ) =
      (Nat.choose population.toNat draws.toNat : ℚ) := by
    have hvdm := Nat.add_choose_eq successes_in_pop.toNat
      (population.toNat - successes_in_pop.toNat) draws.toNat
    rw [Finset.Nat.sum_antidiagonal_eq_sum_range_succ_mk] at hvdm
    have hadd : successes_in_pop.toNat +
        (population.toNat - successes_in_pop.toNat) =
        population.toNat := by omega
    rw [hadd] at hvdm
    have hcast : ((∑ k ∈ Finset.range (draws.toNat + 1),
        Nat.choose successes_in_pop.toNat k *
          Nat.choose (population.toNat - successes_in_pop.toNat)
            (draws.toNat - k) : Nat) : ℚ) =
        ∑ k ∈ Finset.range (draws.toNat + 1),
          (Nat.choose successes_in_pop.toNat k *
            Nat.choose (population.toNat - successes_in_pop.toNat)
              (draws.toNat - k) : ℚ) := by
      push_cast
      rfl
    rw [← hcast, ← hvdm]
  rw [hV]
  exact div_self (Nat.cast_ne_zero.mpr (Nat.choose_pos hnN).ne')

theorem remainingAt_zero (copiesOf : String → Nat)
    (card_list assigned : List String) (t : Int) :
    remainingAt copiesOf card_list assigned t 0 = t := by
  simp [remainingAt]

theorem remainingAt_cons_skip (copiesOf : String → Nat) (n : String)
    (rest assigned : List String) (t : Int) (j : Nat) (h : n ∈ assigned) :
    remainingAt copiesOf (n :: rest) assigned t (j + 1) =
      remainingAt copiesOf rest assigned t j := by
  simp [remainingAt, List.take_succ_cons, List.filter_cons, h]

theorem remainingAt_cons_visit (copiesOf : String → Nat) (n : String)
    (rest assigned : List String) (t : Int) (j : Nat) (h : n ∉ assigned) :
    remainingAt copiesOf (n :: rest) assigned t (j + 1) =
      remainingAt copiesOf rest assigned (t - copiesOf n) j := by
  simp only [remainingAt, List.take_succ_cons, List.filter_cons,
    decide_eq_true_eq, h, not_false_eq_true, if_pos, List.map_cons,
    List.sum_cons]
  push_cast
  ring

/-! ## Claim theorems -/

/-- C1 (counterexample): the claim that every implementation runs the
brick pass first, then non-engine, then engine is false for the CLI
`run_simulator`: on the deck A:1, B:1 with targets brick 1, non-engine 0,
engine 1, the CLI assigns A to engine (its first pass), while the
brick-first GUI algorithm assigns A to brick, so the two category
assignments differ. -/
theorem pass_order_counterexample :
    partitionCLI [("A", 1), ("B", 1)] 1 0 1 ≠
      partitionGUI [("A", 1), ("B", 1)] 1 0 1
    ∧ (partitionCLI [("A", 1), ("B", 1)] 1 0 1).engine_cards = ["A"]
    ∧ (partitionGUI [("A", 1), ("B", 1)] 1 0 1).brick_cards = ["A"] := by
  decide

/-- C1 (amended): the GUI implementations (`gui.apply_and_draw` and
`draw_manager.apply_and_draw`) assign cards in the fixed pass order brick
first, then non-engine, then engine, each later pass skipping cards
already assigned — they coincide with the specification's brick-first
algorithm for every deck and all targets; the CLI `run_simulator` instead
runs engine first, then non-engine, then brick, so its engine set is the
first-pass set and its brick set the last-pass set of the same greedy
algorithm with brick and engine targets exchanged. -/
theorem pass_order_amended (cards : List (String × Nat))
    (brick_count non_engine_count engine_count : Int) :
    partitionGUI cards brick_count non_engine_count engine_count =
      specPartition cards brick_count.toNat non_engine_count.toNat
        engine_count.toNat
    ∧ (partitionCLI cards brick_count non_engine_count engine_count
        ).engine_cards =
      (specPartition cards engine_count.toNat non_engine_count.toNat
        brick_count.toNat).brick_cards
    ∧ (partitionCLI cards brick_count non_engine_count engine_count
        ).non_engine_cards =
      (specPartition cards engine_count.toNat non_engine_count.toNat
        brick_count.toNat).non_engine_cards
    ∧ (partitionCLI cards brick_count non_engine_count engine_count
        ).brick_cards =
      (specPartition cards engine_count.toNat non_engine_count.toNat
        brick_count.toNat).engine_cards := by
  simp only [partitionGUI, partitionCLI, specPartition,
    categoryPass_eq_specPass]
  exact ⟨trivial, trivial, trivial, trivial⟩

/-- C2: a card name is produced by a category pass exactly when, at its
position in the walk, it is not already categorized, the remaining target
on arrival there (the initial target decremented by the full copy count of
every earlier visited card, whether or not it was added) is still
positive — so the walk has not stopped — and its whole copy count is at
most that remaining target.  This is the greedy whole-card rule: add iff
`copies ≤ remaining`, decrement by the full copy count regardless, stop as
soon as the remaining target is `≤ 0`. -/
theorem categoryPass_greedy_rule (copiesOf : String → Nat)
    (card_list : List String) (assigned : List String) (t : Int)
    (x : String) :
    x ∈ categoryPass copiesOf card_list assigned t ↔
      ∃ i : Nat, ∃ hi : i < card_list.length,
        card_list.get ⟨i, hi⟩ = x ∧ x ∉ assigned ∧
        0 < remainingAt copiesOf card_list assigned t i ∧
        (copiesOf x : Int) ≤ remainingAt copiesOf card_list assigned t i
    := by
  induction card_list generalizing assigned t with
  | nil => simp [categoryPass]
  | cons n rest ih =>
      rw [categoryPass]
      by_cases ht : t ≤ 0
      · rw [if_pos ht]
        constructor
        · intro h
          exact absurd h (List.not_mem_nil x)
        · rintro ⟨i, hi, -, -, hpos, -⟩
          rw [remainingAt] at hpos
          exfalso
          omega
      · rw [if_neg ht]
        by_cases hmem : n ∈ assigned
        · rw [if_pos hmem, ih assigned t]
          constructor
          · rintro ⟨j, hj, hget, hx, hpos, hle⟩
            refine ⟨j + 1, by simpa using Nat.succ_lt_succ hj, ?_, hx,
              ?_, ?_⟩
            · simpa using hget
            · rwa [remainingAt_cons_skip copiesOf n rest assigned t j
                hmem]
            · rwa [remainingAt_cons_skip copiesOf n rest assigned t j
                hmem]
          · rintro ⟨i, hi, hget, hx, hpos, hle⟩
            cases i with
            | zero =>
                have hnx : n = x := hget
                subst hnx
                exact absurd hmem hx
            | succ j =>
                refine ⟨j, by simpa using hi, by simpa using hget, hx,
                  ?_, ?_⟩
                · rwa [remainingAt_cons_skip copiesOf n rest assigned t
                    j hmem] at hpos
                · rwa [remainingAt_cons_skip copiesOf n rest assigned t
                    j hmem] at hle
        · rw [if_neg hmem]
          by_cases hc : (copiesOf n : Int) ≤ t
          · rw [if_pos hc, List.mem_cons,
              ih assigned (t - copiesOf n)]
            constructor
            · rintro (hxn | ⟨j, hj, hget, hx, hpos, hle⟩)
              · subst hxn
                refine ⟨0, by simp, rfl, hmem, ?_, ?_⟩
                · rw [remainingAt_zero]; omega
                · rw [remainingAt_zero]; exact hc
              · refine ⟨j + 1, by simpa using Nat.succ_lt_succ hj,
                  by simpa using hget, hx, ?_, ?_⟩
                · rwa [remainingAt_cons_visit copiesOf n rest assigned
                    t j hmem]
                · rwa [remainingAt_cons_visit copiesOf n rest assigned
                    t j hmem]
            · rintro ⟨i, hi, hget, hx, hpos, hle⟩
              cases i with
              | zero =>
                  have hnx : n = x := hget
                  exact Or.inl hnx.symm
              | succ j =>
                  refine Or.inr ⟨j, by simpa using hi,
                    by simpa using hget, hx, ?_, ?_⟩
                  · rwa [remainingAt_cons_visit copiesOf n rest
                      assigned t j hmem] at hpos
                  · rwa [remainingAt_cons_visit copiesOf n rest
                      assigned t j hmem] at hle
          · rw [if_neg hc, ih assigned (t - copiesOf n)]
            constructor
            · rintro ⟨j, hj, hget, hx, hpos, hle⟩
              refine ⟨j + 1, by simpa using Nat.succ_lt_succ hj,
                by simpa using hget, hx, ?_, ?_⟩
              · rwa [remainingAt_cons_visit copiesOf n rest assigned t
                  j hmem]
              · rwa [remainingAt_cons_visit copiesOf n rest assigned t
                  j hmem]
            · rintro ⟨i, hi, hget, hx, hpos, hle⟩
              cases i with
              | zero =>
                  have hnx : n = x := hget
                  subst hnx
                  rw [remainingAt_zero] at hle
                  exact absurd hle hc
              | succ j =>
                  refine ⟨j, by simpa using hi, by simpa using hget,
                    hx, ?_, ?_⟩
                  · rwa [remainingAt_cons_visit copiesOf n rest
                      assigned t j hmem] at hpos
                  · rwa [remainingAt_cons_visit copiesOf n rest
                      assigned t j hmem] at hle

/-- C3 (counterexample): the CLI and GUI partition implementations are not
equivalent: on the deck C:1, D:1 with non-negative targets brick 1,
non-engine 0, engine 1 (sum 2 = deck size), they produce different
category sets. -/
theorem cli_gui_partition_counterexample :
    partitionCLI [("C", 1), ("D", 1)] 1 0 1 ≠
      partitionGUI [("C", 1), ("D", 1)] 1 0 1 := by
  decide

/-- C3 (amended): the two implementations run the same greedy pass but in
opposite category orders, so for every deck and every triple of targets
the CLI's assignment equals the GUI's assignment with the brick and engine
roles exchanged: the CLI engine set equals the GUI brick set for targets
(brick := engine_count, non-engine := non_engine_count,
engine := brick_count), the non-engine sets agree under that exchange, and
the CLI brick set equals the corresponding GUI engine set.  They are not
identical in general. -/
theorem cli_gui_roles_swapped (cards : List (String × Nat))
    (brick_count non_engine_count engine_count : Int) :
    (partitionCLI cards brick_count non_engine_count engine_count
      ).engine_cards =
      (partitionGUI cards engine_count non_engine_count brick_count
        ).brick_cards
    ∧ (partitionCLI cards brick_count non_engine_count engine_count
        ).non_engine_cards =
      (partitionGUI cards engine_count non_engine_count brick_count
        ).non_engine_cards
    ∧ (partitionCLI cards brick_count non_engine_count engine_count
        ).brick_cards =
      (partitionGUI cards engine_count non_engine_count brick_count
        ).engine_cards :=
  ⟨rfl, rfl, rfl⟩

/-- C6: after any run of the partition algorithm — the GUI order or the
CLI order, any deck, any targets — the three category sets are pairwise
disjoint and each is a subset of the deck's card names. -/
theorem partition_disjoint_and_subset (cards : List (String × Nat))
    (brick_count non_engine_count engine_count : Int) :
    ((partitionGUI cards brick_count non_engine_count engine_count
        ).engine_cards.Disjoint
      (partitionGUI cards brick_count non_engine_count engine_count
        ).non_engine_cards
    ∧ (partitionGUI cards brick_count non_engine_count engine_count
        ).engine_cards.Disjoint
      (partitionGUI cards brick_count non_engine_count engine_count
        ).brick_cards
    ∧ (partitionGUI cards brick_count non_engine_count engine_count
        ).non_engine_cards.Disjoint
      (partitionGUI cards brick_count non_engine_count engine_count
        ).brick_cards
    ∧ (partitionGUI cards brick_count non_engine_count engine_count
        ).engine_cards ⊆ cards.map Prod.fst
    ∧ (partitionGUI cards brick_count non_engine_count engine_count
        ).non_engine_cards ⊆ cards.map Prod.fst
    ∧ (partitionGUI cards brick_count non_engine_count engine_count
        ).brick_cards ⊆ cards.map Prod.fst)
    ∧ ((partitionCLI cards brick_count non_engine_count engine_count
        ).engine_cards.Disjoint
      (partitionCLI cards brick_count non_engine_count engine_count
        ).non_engine_cards
    ∧ (partitionCLI cards brick_count non_engine_count engine_count
        ).engine_cards.Disjoint
      (partitionCLI cards brick_count non_engine_count engine_count
        ).brick_cards
    ∧ (partitionCLI cards brick_count non_engine_count engine_count
        ).non_engine_cards.Disjoint
      (partitionCLI cards brick_count non_engine_count engine_count
        ).brick_cards
    ∧ (partitionCLI cards brick_count non_engine_count engine_count
        ).engine_cards ⊆ cards.map Prod.fst
    ∧ (partitionCLI cards brick_count non_engine_count engine_count
        ).non_engine_cards ⊆ cards.map Prod.fst
    ∧ (partitionCLI cards brick_count non_engine_count engine_count
        ).brick_cards ⊆ cards.map Prod.fst) := by
  constructor
  · refine ⟨?_, ?_, ?_, ?_, ?_, ?_⟩
    · intro a ha hb
      have := categoryPass_not_assigned _ _ _ _ _ ha
      exact this (List.mem_append.2 (Or.inr hb))
    · intro a ha hb
      have := categoryPass_not_assigned _ _ _ _ _ ha
      exact this (List.mem_append.2 (Or.inl hb))
    · intro a ha hb
      exact categoryPass_not_assigned _ _ _ _ _ ha hb
    · intro a ha; exact categoryPass_subset _ _ _ _ _ ha
    · intro a ha; exact categoryPass_subset _ _ _ _ _ ha
    · intro a ha; exact categoryPass_subset _ _ _ _ _ ha
  · refine ⟨?_, ?_, ?_, ?_, ?_, ?_⟩
    · intro a ha hb
      have := categoryPass_not_assigned _ _ _ _ _ hb
      exact this ha
    · intro a ha hb
      have := categoryPass_not_assigned _ _ _ _ _ hb
      exact this (List.mem_append.2 (Or.inl ha))
    · intro a ha hb
      have := categoryPass_not_assigned _ _ _ _ _ hb
      exact this (List.mem_append.2 (Or.inr ha))
    · intro a ha; exact categoryPass_subset _ _ _ _ _ ha
    · intro a ha; exact categoryPass_subset _ _ _ _ _ ha
    · intro a ha; exact categoryPass_subset _ _ _ _ _ ha

/-- C7: `add_card` fails exactly when `copies < 1` or
`copies > MAX_COPIES`; on failure nothing is stored (the mapping is
unchanged), and on success the copy count for the name is set
(overwriting any previous value), every other name's entry is untouched,
and the key order is unchanged except that a new name is appended. -/
theorem add_card_spec (cards : List (String × Nat)) (card_name : String)
    (copies : Int) :
    (add_card cards card_name copies = none ↔
      (copies < 1 ∨ copies > MAX_COPIES))
    ∧ ∀ d, add_card cards card_name copies = some d →
        (List.lookup card_name d = some copies.toNat
        ∧ (∀ m, m ≠ card_name → List.lookup m d = List.lookup m cards)
        ∧ d.map Prod.fst =
            (if card_name ∈ cards.map Prod.fst then cards.map Prod.fst
             else cards.map Prod.fst ++ [card_name])) := by
  constructor
  · unfold add_card
    by_cases h : copies < 1 ∨ copies > MAX_COPIES
    · simp [h]
    · simp [h]
  · intro d hd
    unfold add_card at hd
    by_cases h : copies < 1 ∨ copies > MAX_COPIES
    · rw [if_pos h] at hd; cases hd
    · rw [if_neg h] at hd
      have hd' : d = dictSet cards card_name copies.toNat :=
        (Option.some.injEq _ _ ▸ hd).symm
      subst hd'
      exact ⟨lookup_dictSet_self cards card_name copies.toNat,
        fun m hm => lookup_dictSet_ne cards card_name copies.toNat m hm,
        keys_dictSet cards card_name copies.toNat⟩

/-- C7 (witness): `add_card` rejects 4 copies of a card, and storing 2
copies of a card over an existing 1-copy entry overwrites that entry. -/
theorem add_card_spec_witness :
    add_card [("A", 1)] ("A") 4 = none
    ∧ List.lookup ("A") [("A", 2)] = some ((2 : Int)).toNat :=
  ⟨(add_card_spec [("A", 1)] ("A") 4).1.mpr (by decide),
   ((add_card_spec [("A", 1)] ("A") 2).2 [("A", 2)] (by decide)).1⟩

/-- C10: the realized category totals never overshoot the requested
targets: for non-negative targets, in both the GUI and the CLI
implementation, the sum of the copy counts of the cards assigned to each
category is at most that category's target. -/
theorem partition_no_overshoot (cards : List (String × Nat))
    (brick_count non_engine_count engine_count : Int)
    (hb : 0 ≤ brick_count) (hn : 0 ≤ non_engine_count)
    (he : 0 ≤ engine_count) :
    ((((partitionGUI cards brick_count non_engine_count engine_count
          ).brick_cards.map (copiesOfDeck cards)).sum : Int) ≤ brick_count
    ∧ (((partitionGUI cards brick_count non_engine_count engine_count
          ).non_engine_cards.map (copiesOfDeck cards)).sum : Int) ≤
        non_engine_count
    ∧ (((partitionGUI cards brick_count non_engine_count engine_count
          ).engine_cards.map (copiesOfDeck cards)).sum : Int) ≤
        engine_count)
    ∧ ((((partitionCLI cards brick_count non_engine_count engine_count
          ).brick_cards.map (copiesOfDeck cards)).sum : Int) ≤ brick_count
    ∧ (((partitionCLI cards brick_count non_engine_count engine_count
          ).non_engine_cards.map (copiesOfDeck cards)).sum : Int) ≤
        non_engine_count
    ∧ (((partitionCLI cards brick_count non_engine_count engine_count
          ).engine_cards.map (copiesOfDeck cards)).sum : Int) ≤
        engine_count) := by
  refine ⟨⟨?_, ?_, ?_⟩, ?_, ?_, ?_⟩ <;>
    · have h1 := categoryPass_sum_le (copiesOfDeck cards)
        (cards.map Prod.fst)
      simp only [partitionGUI, partitionCLI]
      exact le_trans (h1 _ _) (by omega)

/-- C10 (witness): concrete run on the deck A:2 with all three targets 1:
no category receives more than one copy in either implementation. -/
theorem partition_no_overshoot_witness :
    ((((partitionGUI [("A", 2)] 1 1 1).brick_cards.map
        (copiesOfDeck [("A", 2)])).sum : Int) ≤ 1
    ∧ (((partitionGUI [("A", 2)] 1 1 1).non_engine_cards.map
        (copiesOfDeck [("A", 2)])).sum : Int) ≤ 1
    ∧ (((partitionGUI [("A", 2)] 1 1 1).engine_cards.map
        (copiesOfDeck [("A", 2)])).sum : Int) ≤ 1)
    ∧ ((((partitionCLI [("A", 2)] 1 1 1).brick_cards.map
        (copiesOfDeck [("A", 2)])).sum : Int) ≤ 1
    ∧ (((partitionCLI [("A", 2)] 1 1 1).non_engine_cards.map
        (copiesOfDeck [("A", 2)])).sum : Int) ≤ 1
    ∧ (((partitionCLI [("A", 2)] 1 1 1).engine_cards.map
        (copiesOfDeck [("A", 2)])).sum : Int) ≤ 1) :=
  partition_no_overshoot [("A", 2)] 1 1 1 (by decide) (by decide)
    (by decide)

/-- C4: `hypergeometric_probability` never raises on integer inputs; it
returns `0.0` whenever `k > K`, `k > n`, `k < 0` or `n - k > N - K`; in
every other case the denominator `C(N, n)` is positive (so no division by
zero can occur) and the result is
`C(K, k) * C(N - K, n - k) / C(N, n)`; in particular the degenerate case
`N < n` always falls under the zero guards. -/
theorem hypergeometric_spec (population successes_in_pop : Int)
    (draws target_successes : Int) :
    (hypergeometric_probability population successes_in_pop draws
      target_successes).isSome = true
    ∧ ((target_successes > successes_in_pop ∨ target_successes > draws ∨
        target_successes < 0 ∨
        draws - target_successes > population - successes_in_pop) →
      hypergeometric_probability population successes_in_pop draws
        target_successes = some 0)
    ∧ (¬(target_successes > successes_in_pop ∨ target_successes > draws ∨
        target_successes < 0 ∨
        draws - target_successes > population - successes_in_pop) →
      hypergeometric_probability population successes_in_pop draws
          target_successes =
        some ((Nat.choose successes_in_pop.toNat target_successes.toNat *
            Nat.choose (population - successes_in_pop).toNat
              (draws - target_successes).toNat : ℚ) /
          (Nat.choose population.toNat draws.toNat : ℚ))
      ∧ 0 < Nat.choose population.toNat draws.toNat)
    ∧ (population < draws →
      hypergeometric_probability population successes_in_pop draws
        target_successes = some 0) := by
  refine ⟨hypergeometric_isSome _ _ _ _, ?_, ?_, ?_⟩
  · intro h
    rw [hypergeometric_eq_some, if_pos h]
  · intro h
    refine ⟨by rw [hypergeometric_eq_some, if_neg h], ?_⟩
    push_neg at h
    exact Nat.choose_pos (by omega)
  · intro h
    rw [hypergeometric_eq_some, if_pos (by omega)]

/-- C4 (witness): concrete instances — asking for 3 successes out of the
2 available returns `0.0`; the degenerate draw of 5 from a population of
3 returns `0.0`; and a structurally possible draw returns the exact
binomial formula. -/
theorem hypergeometric_spec_witness :
    hypergeometric_probability 40 2 5 3 = some 0
    ∧ hypergeometric_probability 3 2 5 0 = some 0
    ∧ hypergeometric_probability 4 2 2 1 =
      some ((Nat.choose (2 : Int).toNat (1 : Int).toNat *
          Nat.choose ((4 : Int) - 2).toNat ((2 : Int) - 1).toNat : ℚ) /
        (Nat.choose (4 : Int).toNat (2 : Int).toNat : ℚ)) :=
  ⟨(hypergeometric_spec 40 2 5 3).2.1 (by decide),
   (hypergeometric_spec 3 2 5 0).2.2.2 (by decide),
   ((hypergeometric_spec 4 2 2 1).2.2.1 (by decide)).1⟩

/-- C5: for all valid inputs with `0 ≤ K ≤ N` and `0 ≤ n ≤ N` the
distribution normalizes: the sum of `hypergeometric_probability N K n k`
for `k` from `0` to `n` equals `1`, and `probability_at_least N K n 0`
(which sums `k` from `0` to `min(K, n)`) returns exactly `1`. -/
theorem hypergeometric_normalization (population successes_in_pop : Int)
    (draws : Int) (h1 : 0 ≤ successes_in_pop)
    (h2 : successes_in_pop ≤ population) (h3 : 0 ≤ draws)
    (h4 : draws ≤ population) :
    ((List.range (draws.toNat + 1)).map (fun k : Nat =>
      hVal population successes_in_pop draws (k : Int))).sum = 1
    ∧ probability_at_least population successes_in_pop draws 0 =
      some 1 := by
  constructor
  · rw [list_range_map_sum]
    exact sum_hVal_eq_one _ _ _ h1 h2 h3 h4
  · rw [probability_at_least, sumHyper_eq]
    congr 1
    rw [zero_add]
    simp only [intRange]
    have hm : ((min successes_in_pop draws + 1) - 0).toNat =
        min successes_in_pop.toNat draws.toNat + 1 := by omega
    rw [hm, List.map_map]
    have hcomp : ((fun k => hVal population successes_in_pop draws k) ∘
        (fun i : Nat => (0 : Int) + (i : Int))) =
        (fun i : Nat =>
          hVal population successes_in_pop draws (i : Int)) := by
      funext i
      simp
    rw [hcomp, list_range_map_sum]
    rw [Finset.sum_subset (Finset.range_subset.mpr
      (by omega : min successes_in_pop.toNat draws.toNat + 1 ≤
        draws.toNat + 1)) ?_]
    · exact sum_hVal_eq_one _ _ _ h1 h2 h3 h4
    · intro k hk hks
      rw [Finset.mem_range] at hk
      rw [Finset.mem_range] at hks
      have hgt : (k : Int) > successes_in_pop := by omega
      rw [hVal, hypergeometric_eq_some, Option.getD_some,
        if_pos (Or.inl hgt)]

/-- C5 (witness): at population 4 with 2 successes and 2 draws both the
plain sum over `k = 0, 1, 2` and `probability_at_least` with minimum 0
are exactly 1. -/
theorem hypergeometric_normalization_witness :
    ((List.range ((2 : Int).toNat + 1)).map (fun k : Nat =>
      hVal 4 2 2 (k : Int))).sum = 1
    ∧ probability_at_least 4 2 2 0 = some 1 :=
  hypergeometric_normalization 4 2 2 (by decide) (by decide) (by decide)
    (by decide)

/-- C8: the joint engine/non-engine table has an entry at `(e, ne)` if and
only if `e + ne ≤ hand_size`, `e ≤ engine_count`, `ne ≤ non_engine_count`
and `0 ≤ hand_size - e - ne ≤ N - engine_count - non_engine_count`; a
present entry equals
`C(engine_count, e) * C(non_engine_count, ne) * C(other_count,
other_in_hand) / C(N, hand_size)`, and cells failing the constraints are
absent rather than stored as zero. -/
theorem combinations_table_spec (deck_size engine_count : Nat)
    (non_engine_count hand_size e ne : Nat) (q : ℚ) :
    ((e, ne), q) ∈ combinations_table deck_size engine_count
        non_engine_count hand_size ↔
      (e + ne ≤ hand_size ∧ e ≤ engine_count ∧ ne ≤ non_engine_count ∧
       0 ≤ (hand_size : Int) - e - ne ∧
       (hand_size : Int) - e - ne ≤
         (deck_size : Int) - engine_count - non_engine_count ∧
       q = (Nat.choose engine_count e * Nat.choose non_engine_count ne *
           Nat.choose
             ((deck_size : Int) - engine_count - non_engine_count).toNat
             ((hand_size : Int) - e - ne).toNat : ℚ) /
         (Nat.choose deck_size hand_size : ℚ)) := by
  simp only [combinations_table, List.mem_flatMap, List.mem_filterMap,
    List.mem_range]
  constructor
  · rintro ⟨eng, heng, non_eng, hne2, heq⟩
    split_ifs at heq with h1 h2
    rw [Option.some_inj] at heq
    obtain ⟨hpair, hv⟩ := Prod.ext_iff.1 heq
    obtain ⟨he1, hn1⟩ := Prod.ext_iff.1 hpair
    simp only at he1 hn1 hv
    subst he1
    subst hn1
    exact ⟨by omega, h1.1, h1.2, h2.1, h2.2, hv.symm⟩
  · rintro ⟨hsum, hE, hNE, hpos, hle, hq⟩
    refine ⟨e, by omega, ne, by omega, ?_⟩
    rw [if_pos ⟨hE, hNE⟩, if_pos ⟨hpos, hle⟩, hq]

/-- C9: for every deck size `N > 5` and brick total, the brick-risk
composite printed by both the CLI (`display_results`) and the GUI
(`display_statistics`) equals (in percent, as printed) the specified
formula `P(at least 1 brick in hand) + P(no brick in hand) *
(brick_total / (N - 5))`, and the two implementations agree. -/
theorem brick_risk_composite (deck_size brick_total : Nat)
    (h : 5 < deck_size) :
    brick_by_turn1_cli deck_size brick_total =
      100 * (atLeastVal (deck_size : Int) (brick_total : Int) 5 1 +
        hVal (deck_size : Int) (brick_total : Int) 5 0 *
          ((brick_total : ℚ) / ((deck_size : ℚ) - 5)))
    ∧ brick_by_turn1_gui deck_size brick_total =
      brick_by_turn1_cli deck_size brick_total := by
  constructor
  · rw [brick_by_turn1_cli]
    simp only [if_pos h]
    ring
  · rw [brick_by_turn1_cli, brick_by_turn1_gui]
    simp only [if_pos h]
    ring

/-- C9 (witness): at deck size 6 with 1 brick the composite evaluates via
the formula and both implementations agree. -/
theorem brick_risk_composite_witness :
    brick_by_turn1_cli 6 1 =
      100 * (atLeastVal (6 : Int) (1 : Int) 5 1 +
        hVal (6 : Int) (1 : Int) 5 0 * ((1 : ℚ) / ((6 : ℚ) - 5)))
    ∧ brick_by_turn1_gui 6 1 = brick_by_turn1_cli 6 1 := by
  have h := brick_risk_composite 6 1 (by decide)
  simpa using h

end YGO
